import Mathlib

/-!
Verification of the re-execution resolver described in the repository's
re-execution guide, together with the error-rendering component of the web UI.
The resolver core (DAG model, selection parser and resolver, planner, run
lineage tracker) is specified in prose; its behavior is modelled here and the
spec's testable properties are proved against the model.
-/

namespace Reexec

/-! ### Generic reachability over a neighbor function

Steps are identified by name.  A neighbor function `nf` sends a step name to
the names one edge away; `stepRel nf a b` holds when there is an edge `a → b`.
Bounded closures iterate a frontier expansion; unbounded closures iterate to a
fixpoint with fuel bounded by the universe of candidate names. -/

def stepRel (nf : String → List String) (a b : String) : Prop := b ∈ nf a

/-- Reachability in at most `n` edge hops. -/
inductive ReachWithin (nf : String → List String) : Nat → String → String → Prop
  | refl (n s) : ReachWithin nf n s s
  | head {n a b c} : b ∈ nf a → ReachWithin nf n b c → ReachWithin nf (n + 1) a c

/-- Names one edge away from `cur` that are not already in `cur`. -/
def newFrontier (nf : String → List String) (cur : List String) : List String :=
  ((cur.flatMap nf).filter (fun x => decide (x ∉ cur))).dedup

/-- One level of expansion: `cur` together with its new frontier. -/
def growStep (nf : String → List String) (cur : List String) : List String :=
  cur ++ newFrontier nf cur

/-- `n` levels of expansion. -/
def iterGrow (nf : String → List String) : Nat → List String → List String
  | 0, cur => cur
  | n + 1, cur => iterGrow nf n (growStep nf cur)

/-- Expansion to a fixpoint, with explicit fuel. -/
def closeAux (nf : String → List String) : Nat → List String → List String
  | 0, cur => cur
  | n + 1, cur =>
    if newFrontier nf cur = [] then cur
    else closeAux nf n (cur ++ newFrontier nf cur)

/-- Full forward closure of `S`, the fuel drawn from a universe list that
bounds every neighbor. -/
def close (nf : String → List String) (univ : List String) (S : List String) :
    List String :=
  closeAux nf univ.dedup.length S

theorem mem_newFrontier {nf : String → List String} {cur : List String} {y : String} :
    y ∈ newFrontier nf cur ↔ (∃ a ∈ cur, y ∈ nf a) ∧ y ∉ cur := by
  simp [newFrontier, List.mem_dedup, List.mem_filter, List.mem_flatMap]

theorem mem_growStep {nf : String → List String} {cur : List String} {y : String} :
    y ∈ growStep nf cur ↔ y ∈ cur ∨ ∃ a ∈ cur, y ∈ nf a := by
  constructor
  · intro h
    rcases List.mem_append.1 h with h | h
    · exact Or.inl h
    · exact Or.inr (mem_newFrontier.1 h).1
  · intro h
    rcases h with h | h
    · exact List.mem_append.2 (Or.inl h)
    · by_cases hy : y ∈ cur
      · exact List.mem_append.2 (Or.inl hy)
      · exact List.mem_append.2 (Or.inr (mem_newFrontier.2 ⟨h, hy⟩))

theorem reachWithin_zero {nf : String → List String} {a x : String}
    (h : ReachWithin nf 0 a x) : a = x := by
  cases h with
  | refl => rfl

theorem reachWithin_succ {nf : String → List String} {n : Nat} {a x : String}
    (h : ReachWithin nf n a x) : ReachWithin nf (n + 1) a x := by
  induction h with
  | refl => exact ReachWithin.refl _ _
  | head hb _ ih => exact ReachWithin.head hb ih

theorem mem_iterGrow {nf : String → List String} {n : Nat} {S : List String} {x : String} :
    x ∈ iterGrow nf n S ↔ ∃ a ∈ S, ReachWithin nf n a x := by
  induction n generalizing S with
  | zero =>
    constructor
    · intro h; exact ⟨x, h, ReachWithin.refl _ _⟩
    · rintro ⟨a, ha, hr⟩; rwa [reachWithin_zero hr] at ha
  | succ n ih =>
    constructor
    · intro h
      rcases ih.1 h with ⟨a, ha, hr⟩
      rcases mem_growStep.1 ha with ha' | ⟨s, hs, hedge⟩
      · exact ⟨a, ha', reachWithin_succ hr⟩
      · exact ⟨s, hs, ReachWithin.head hedge hr⟩
    · rintro ⟨a, ha, hr⟩
      cases hr with
      | refl =>
        exact ih.2 ⟨x, mem_growStep.2 (Or.inl ha), ReachWithin.refl _ _⟩
      | head hb hr' =>
        exact ih.2 ⟨_, mem_growStep.2 (Or.inr ⟨a, ha, hb⟩), hr'⟩

theorem subset_closeAux (nf : String → List String) (n : Nat) (cur : List String)
    {x : String} (hx : x ∈ cur) : x ∈ closeAux nf n cur := by
  induction n generalizing cur with
  | zero => exact hx
  | succ n ih =>
    simp only [closeAux]
    split
    · exact hx
    · exact ih _ (List.mem_append.2 (Or.inl hx))

theorem closeAux_sound {nf : String → List String} {n : Nat} {cur : List String}
    {x : String} (hx : x ∈ closeAux nf n cur) :
    ∃ a ∈ cur, Relation.ReflTransGen (stepRel nf) a x := by
  induction n generalizing cur with
  | zero => exact ⟨x, hx, Relation.ReflTransGen.refl⟩
  | succ n ih =>
    simp only [closeAux] at hx
    split at hx
    · exact ⟨x, hx, Relation.ReflTransGen.refl⟩
    · rcases ih hx with ⟨a, ha, hr⟩
      rcases List.mem_append.1 ha with ha' | ha'
      · exact ⟨a, ha', hr⟩
      · rcases (mem_newFrontier.1 ha').1 with ⟨s, hs, hedge⟩
        exact ⟨s, hs, Relation.ReflTransGen.head hedge hr⟩

theorem length_filter_le_of_imp {α : Type} {p q : α → Bool} (l : List α)
    (himp : ∀ x, q x = true → p x = true) :
    (l.filter q).length ≤ (l.filter p).length := by
  induction l with
  | nil => simp
  | cons a l ih =>
    by_cases hq : q a = true
    · simp [List.filter, hq, himp a hq, Nat.succ_le_succ ih]
    · have hq' : q a = false := by
        cases h : q a
        · rfl
        · exact absurd h hq
      by_cases hp : p a = true
      · simp only [List.filter, hq', hp]
        exact Nat.le_trans ih (Nat.le_succ _)
      · have hp' : p a = false := by
          cases h : p a
          · rfl
          · exact absurd h hp
        simp only [List.filter, hq', hp']
        exact ih

theorem length_filter_lt_of_imp {α : Type} {p q : α → Bool} (l : List α)
    (himp : ∀ x, q x = true → p x = true) (x : α) (hx : x ∈ l)
    (hpx : p x = true) (hqx : q x = false) :
    (l.filter q).length < (l.filter p).length := by
  induction l with
  | nil => cases hx
  | cons a l ih =>
    rcases List.mem_cons.1 hx with rfl | hx'
    · have hq' : q x = false := hqx
      simp only [List.filter, hq', hpx]
      exact Nat.lt_succ_of_le (length_filter_le_of_imp l himp)
    · by_cases hq : q a = true
      · simp only [List.filter, hq, himp a hq]
        exact Nat.succ_lt_succ (ih hx')
      · have hq' : q a = false := by
          cases h : q a
          · rfl
          · exact absurd h hq
        by_cases hp : p a = true
        · simp only [List.filter, hq', hp]
          exact Nat.lt_succ_of_lt (ih hx')
        · have hp' : p a = false := by
            cases h : p a
            · rfl
            · exact absurd h hp
          simp only [List.filter, hq', hp']
          exact ih hx'

theorem closeAux_frontier_nil {nf : String → List String} {univ : List String}
    (hb : ∀ x y, y ∈ nf x → y ∈ univ) {n : Nat} {cur : List String}
    (hm : (univ.dedup.filter (fun u => decide (u ∉ cur))).length ≤ n) :
    newFrontier nf (closeAux nf n cur) = [] := by
  induction n generalizing cur with
  | zero =>
    have hempty : univ.dedup.filter (fun u => decide (u ∉ cur)) = [] :=
      List.eq_nil_of_length_eq_zero (Nat.le_zero.1 hm)
    simp only [closeAux]
    by_contra hne
    rcases List.exists_mem_of_ne_nil _ hne with ⟨y, hy⟩
    rcases mem_newFrontier.1 hy with ⟨⟨a, _, hya⟩, hynot⟩
    have hyuniv : y ∈ univ.dedup := List.mem_dedup.2 (hb a y hya)
    have : y ∈ univ.dedup.filter (fun u => decide (u ∉ cur)) :=
      List.mem_filter.2 ⟨hyuniv, by simpa using hynot⟩
    rw [hempty] at this
    cases this
  | succ n ih =>
    simp only [closeAux]
    split
    · assumption
    · rename_i hne
      apply ih
      rcases List.exists_mem_of_ne_nil _ hne with ⟨y, hy⟩
      rcases mem_newFrontier.1 hy with ⟨⟨a, ha, hya⟩, hynot⟩
      have hlt :
          (univ.dedup.filter (fun u => decide (u ∉ cur ++ newFrontier nf cur))).length <
          (univ.dedup.filter (fun u => decide (u ∉ cur))).length := by
        apply length_filter_lt_of_imp _ _ y (List.mem_dedup.2 (hb a y hya))
        · simpa using hynot
        · simp only [decide_eq_false_iff_not, Decidable.not_not]
          exact List.mem_append.2 (Or.inr hy)
        · intro x hx
          simp only [decide_eq_true_eq] at hx ⊢
          intro hmem
          exact hx (List.mem_append.2 (Or.inl hmem))
      omega

theorem closeAux_closed {nf : String → List String} {cur : List String}
    (h : newFrontier nf cur = []) {x y : String} (hx : x ∈ cur) (hy : y ∈ nf x) :
    y ∈ cur := by
  by_contra hyn
  have : y ∈ newFrontier nf cur := mem_newFrontier.2 ⟨⟨x, hx, hy⟩, hyn⟩
  rw [h] at this
  cases this

/-- Membership in the full closure is exactly reflexive–transitive reachability
from the seed set, whenever the universe list bounds every neighbor. -/
theorem mem_close {nf : String → List String} {univ S : List String}
    (hb : ∀ x y, y ∈ nf x → y ∈ univ) {x : String} :
    x ∈ close nf univ S ↔ ∃ a ∈ S, Relation.ReflTransGen (stepRel nf) a x := by
  constructor
  · exact closeAux_sound
  · rintro ⟨a, ha, hr⟩
    have hfix : newFrontier nf (close nf univ S) = [] :=
      closeAux_frontier_nil hb (List.length_filter_le _ _)
    induction hr with
    | refl => exact subset_closeAux nf _ S ha
    | tail _ hstep ih => exact closeAux_closed hfix ih hstep

/-! ### DAG model

Modelled from the spec: the resolver core itself is not among the repository
source files (only its prose guide is), so the data model below follows the
spec's §3 data model and §4.1 DAG contract. -/

/-- Modelled from the spec: a Step has a unique name, upstream dependency
names, and declared output names. -/
structure Step where
  name : String
  deps : List String
  outputs : List String
deriving DecidableEq, Repr

/-- Modelled from the spec: a PipelineGraph is the full set of Steps plus
their dependency edges (the edges being the Steps' `deps` fields). -/
abbrev PipelineGraph := List Step

def stepNames (g : PipelineGraph) : List String := g.map Step.name

def depsOf (g : PipelineGraph) (s : String) : List String :=
  match g.find? (fun t => decide (t.name = s)) with
  | some t => t.deps
  | none => []

def childrenOf (g : PipelineGraph) (s : String) : List String :=
  (g.filter (fun t => decide (s ∈ t.deps))).map Step.name

def allDepNames (g : PipelineGraph) : List String := g.flatMap Step.deps

/-- `b` is (weakly) downstream of `a`: reachable forward through dependency
edges. -/
def Descends (g : PipelineGraph) : String → String → Prop :=
  Relation.ReflTransGen (stepRel (childrenOf g))

/-- Modelled from the spec: the forward (descendant) closure of a step set,
inclusive of the set itself. -/
def descendantsSet (g : PipelineGraph) (S : List String) : List String :=
  close (childrenOf g) (stepNames g) S

theorem childrenOf_subset_stepNames (g : PipelineGraph) :
    ∀ x y, y ∈ childrenOf g x → y ∈ stepNames g := by
  intro x y hy
  rcases List.mem_map.1 hy with ⟨t, ht, rfl⟩
  exact List.mem_map.2 ⟨t, List.mem_of_mem_filter ht, rfl⟩

theorem depsOf_subset_allDepNames (g : PipelineGraph) :
    ∀ x y, y ∈ depsOf g x → y ∈ allDepNames g := by
  intro x y hy
  unfold depsOf at hy
  split at hy
  · rename_i t ht
    exact List.mem_flatMap.2 ⟨t, List.mem_of_find?_eq_some ht, hy⟩
  · cases hy

theorem mem_descendantsSet {g : PipelineGraph} {S : List String} {x : String} :
    x ∈ descendantsSet g S ↔ ∃ a ∈ S, Descends g a x :=
  mem_close (childrenOf_subset_stepNames g)

/-! ### Re-execution planner

Modelled from the spec: §4.4 modes, error conditions and the per-input source
computation. -/

/-- Modelled from the spec: per-step completion status recorded in a run. -/
inductive StepStatus
  | succeeded
  | failed
  | skipped
  | notExecuted
deriving DecidableEq, Repr

abbrev StatusMap := List (String × StepStatus)

def statusOf (p : StatusMap) (s : String) : Option StepStatus :=
  (p.find? (fun e => decide (e.1 = s))).map Prod.snd

/-- Modelled from the spec: the four re-execution modes. -/
inductive ReexecutionMode
  | all
  | exact
  | fromSelected
  | fromFailure
deriving DecidableEq, Repr

/-- Modelled from the spec: the §7 error taxonomy. -/
inductive PlanError
  | unknownStep
  | cycleError
  | malformedSelection
  | unknownRun
  | emptySelection
  | noFailureToRecover
  | missingUpstreamArtifact
deriving DecidableEq, Repr

/-- Whether the parent snapshot records any FAILED or NOT_EXECUTED step. -/
def hasFailure (p : StatusMap) : Bool :=
  p.any (fun e =>
    decide (e.2 = StepStatus.failed) || decide (e.2 = StepStatus.notExecuted))

/-- Steps of the graph whose parent status is not SUCCEEDED. -/
def failedBase (g : PipelineGraph) (p : StatusMap) : List String :=
  (stepNames g).filter (fun s => decide (statusOf p s ≠ some StepStatus.succeeded))

/-- Modelled from the spec: the §4.4 mode table for the executable step set. -/
def computeStepSet (g : PipelineGraph) (p : StatusMap) (mode : ReexecutionMode)
    (sel : Option (List String)) : Except PlanError (List String) :=
  match mode with
  | .all => .ok (stepNames g)
  | .exact =>
    match sel with
    | none => .error .emptySelection
    | some S => if S = [] then .error .emptySelection else .ok S
  | .fromSelected =>
    match sel with
    | none => .error .emptySelection
    | some S => if S = [] then .error .emptySelection else .ok (descendantsSet g S)
  | .fromFailure =>
    if hasFailure p then .ok (descendantsSet g (failedBase g p))
    else .error .noFailureToRecover

/-- Modelled from the spec: per-input provenance in a ReexecutionPlan. -/
inductive InputSource
  | thisRun
  | parentRun (step : String)
deriving DecidableEq, Repr

/-- Modelled from the spec: source for one upstream dependency of an included
step — fresh if the upstream is included, else the parent run's artifact,
which must come from a SUCCEEDED parent step. -/
def sourceFor (p : StatusMap) (included : List String) (d : String) :
    Except PlanError InputSource :=
  if d ∈ included then .ok .thisRun
  else if statusOf p d = some .succeeded then .ok (.parentRun d)
  else .error .missingUpstreamArtifact

def inputsForDeps (p : StatusMap) (included : List String) (t : String) :
    List String → Except PlanError (List (String × String × InputSource))
  | [] => .ok []
  | d :: ds =>
    match sourceFor p included d with
    | .error e => .error e
    | .ok s =>
      match inputsForDeps p included t ds with
      | .error e => .error e
      | .ok rest => .ok ((t, d, s) :: rest)

def inputsFor (g : PipelineGraph) (p : StatusMap) (included : List String) :
    List String → Except PlanError (List (String × String × InputSource))
  | [] => .ok []
  | t :: ts =>
    match inputsForDeps p included t (depsOf g t) with
    | .error e => .error e
    | .ok xs =>
      match inputsFor g p included ts with
      | .error e => .error e
      | .ok rest => .ok (xs ++ rest)

/-- Modelled from the spec: the plan artifact — the step set plus the input
source map. -/
structure ReexecutionPlan where
  steps : List String
  inputs : List (String × String × InputSource)
deriving DecidableEq, Repr

/-- Modelled from the spec: the §4.4 planner — compute the step set for the
mode, then the input sources, failing fast on any invalid upstream. -/
def plan (g : PipelineGraph) (p : StatusMap) (mode : ReexecutionMode)
    (sel : Option (List String)) : Except PlanError ReexecutionPlan :=
  match computeStepSet g p mode sel with
  | .error e => .error e
  | .ok steps =>
    match inputsFor g p steps steps with
    | .error e => .error e
    | .ok inputs => .ok ⟨steps, inputs⟩

theorem sourceFor_bad (p : StatusMap) (incl : List String) (d : String)
    (h1 : d ∉ incl) (h2 : statusOf p d ≠ some StepStatus.succeeded) :
    sourceFor p incl d = .error .missingUpstreamArtifact := by
  simp [sourceFor, h1, h2]

theorem sourceFor_ok (p : StatusMap) (incl : List String) (d : String)
    (h : d ∈ incl ∨ statusOf p d = some StepStatus.succeeded) :
    ∃ s, sourceFor p incl d = .ok s := by
  unfold sourceFor
  rcases h with h | h
  · exact ⟨.thisRun, by simp [h]⟩
  · by_cases hd : d ∈ incl
    · exact ⟨.thisRun, by simp [hd]⟩
    · exact ⟨.parentRun d, by simp [hd, h]⟩

theorem sourceFor_error_eq (p : StatusMap) (incl : List String) (d : String)
    (e : PlanError) (h : sourceFor p incl d = .error e) :
    e = .missingUpstreamArtifact := by
  unfold sourceFor at h
  split at h
  · cases h
  · split at h
    · cases h
    · injection h with h'
      exact h'.symm

theorem inputsForDeps_ok (p : StatusMap) (incl : List String) (t : String)
    (ds : List String)
    (h : ∀ d ∈ ds, d ∈ incl ∨ statusOf p d = some StepStatus.succeeded) :
    ∃ l, inputsForDeps p incl t ds = .ok l := by
  induction ds with
  | nil => exact ⟨[], rfl⟩
  | cons d ds ih =>
    rcases sourceFor_ok p incl d (h d (List.mem_cons_self d ds)) with ⟨s, hs⟩
    rcases ih (fun d' hd' => h d' (List.mem_cons_of_mem _ hd')) with ⟨l, hl⟩
    exact ⟨(t, d, s) :: l, by simp [inputsForDeps, hs, hl]⟩

theorem inputsForDeps_bad (p : StatusMap) (incl : List String) (t : String)
    (ds : List String)
    (h : ∃ d ∈ ds, d ∉ incl ∧ statusOf p d ≠ some StepStatus.succeeded) :
    inputsForDeps p incl t ds = .error .missingUpstreamArtifact := by
  induction ds with
  | nil =>
    rcases h with ⟨d, hd, _⟩
    cases hd
  | cons d ds ih =>
    rcases h with ⟨d', hd', hbad⟩
    rcases List.mem_cons.1 hd' with rfl | hd''
    · simp [inputsForDeps, sourceFor_bad p incl d' hbad.1 hbad.2]
    · cases hsrc : sourceFor p incl d with
      | error e =>
        rw [sourceFor_error_eq p incl d e hsrc] at hsrc
        simp [inputsForDeps, hsrc]
      | ok s =>
        simp [inputsForDeps, hsrc, ih ⟨d', hd'', hbad⟩]

theorem inputsForDeps_error_eq (p : StatusMap) (incl : List String) (t : String)
    (ds : List String) (e : PlanError)
    (h : inputsForDeps p incl t ds = .error e) : e = .missingUpstreamArtifact := by
  induction ds generalizing e with
  | nil => cases h
  | cons d ds ih =>
    simp only [inputsForDeps] at h
    split at h
    · rename_i e' hsrc
      injection h with h'
      exact h' ▸ sourceFor_error_eq p incl d e' hsrc
    · split at h
      · rename_i e' hrec
        injection h with h'
        exact h' ▸ ih e' hrec
      · cases h

theorem inputsFor_bad (g : PipelineGraph) (p : StatusMap) (incl : List String)
    (ts : List String)
    (h : ∃ t ∈ ts, ∃ d ∈ depsOf g t,
      d ∉ incl ∧ statusOf p d ≠ some StepStatus.succeeded) :
    inputsFor g p incl ts = .error .missingUpstreamArtifact := by
  induction ts with
  | nil =>
    rcases h with ⟨t, ht, _⟩
    cases ht
  | cons t ts ih =>
    by_cases hbad : ∃ d ∈ depsOf g t,
        d ∉ incl ∧ statusOf p d ≠ some StepStatus.succeeded
    · simp [inputsFor, inputsForDeps_bad p incl t _ hbad]
    · have hgood : ∀ d ∈ depsOf g t,
          d ∈ incl ∨ statusOf p d = some StepStatus.succeeded := by
        intro d hd
        by_contra hc
        push_neg at hc
        exact hbad ⟨d, hd, hc.1, hc.2⟩
      rcases inputsForDeps_ok p incl t _ hgood with ⟨l, hl⟩
      rcases h with ⟨t', ht', hd⟩
      rcases List.mem_cons.1 ht' with rfl | ht''
      · exact absurd hd hbad
      · simp [inputsFor, hl, ih ⟨t', ht'', hd⟩]

theorem inputsFor_error_eq (g : PipelineGraph) (p : StatusMap) (incl : List String)
    (ts : List String) (e : PlanError)
    (h : inputsFor g p incl ts = .error e) : e = .missingUpstreamArtifact := by
  induction ts generalizing e with
  | nil => cases h
  | cons t ts ih =>
    simp only [inputsFor] at h
    split at h
    · rename_i e' hdeps
      injection h with h'
      exact h' ▸ inputsForDeps_error_eq p incl t _ e' hdeps
    · split at h
      · rename_i e' hrec
        injection h with h'
        exact h' ▸ ih e' hrec
      · cases h

theorem hasFailure_iff (p : StatusMap) :
    hasFailure p = true ↔
      ∃ e ∈ p, e.2 = StepStatus.failed ∨ e.2 = StepStatus.notExecuted := by
  simp [hasFailure, List.any_eq_true]

/-! Concrete linear pipeline `A → B → C` used by the spec's scenarios. -/

def linearGraph : PipelineGraph :=
  [⟨"A", [], ["result"]⟩, ⟨"B", ["A"], ["result"]⟩, ⟨"C", ["B"], ["result"]⟩]

def linearParent : StatusMap :=
  [("A", StepStatus.succeeded), ("B", StepStatus.failed),
   ("C", StepStatus.notExecuted)]

def allSucceededParent : StatusMap :=
  [("A", StepStatus.succeeded), ("B", StepStatus.succeeded),
   ("C", StepStatus.succeeded)]

def linearFailurePlan : ReexecutionPlan :=
  ⟨["B", "C"],
   [("B", "A", InputSource.parentRun "A"), ("C", "B", InputSource.thisRun)]⟩

/-- C1: on the linear graph `A → B → C` with parent statuses
`A` SUCCEEDED, `B` FAILED, `C` NOT_EXECUTED, FROM_FAILURE planning selects
exactly the step set containing `B` and `C`, marks `B`'s input from `A` as
pulled from the parent run, and marks `C`'s input from `B` as produced in
this run. -/
theorem fromFailure_linear_scenario :
    plan linearGraph linearParent .fromFailure none = .ok linearFailurePlan ∧
    (∀ x, x ∈ linearFailurePlan.steps ↔ x = "B" ∨ x = "C") ∧
    ("B", "A", InputSource.parentRun "A") ∈ linearFailurePlan.inputs ∧
    ("C", "B", InputSource.thisRun) ∈ linearFailurePlan.inputs := by
  refine ⟨rfl, ?_, by decide, by decide⟩
  intro x
  simp [linearFailurePlan]

/-- C2: for every graph and every non-empty resolved selection `S`,
FROM_SELECTED planning yields exactly `S` unioned with the descendants of
`S`; in particular the result is a superset of `S`. -/
theorem fromSelected_yields_closure (g : PipelineGraph) (p : StatusMap)
    (S : List String) (hne : S ≠ []) :
    ∃ T, computeStepSet g p .fromSelected (some S) = .ok T ∧
      (∀ x ∈ S, x ∈ T) ∧
      (∀ x, x ∈ T ↔ x ∈ S ∨ ∃ a ∈ S, Descends g a x) := by
  refine ⟨descendantsSet g S, by simp [computeStepSet, hne], ?_, ?_⟩
  · intro x hx
    exact mem_descendantsSet.2 ⟨x, hx, Relation.ReflTransGen.refl⟩
  · intro x
    rw [mem_descendantsSet]
    constructor
    · rintro ⟨a, ha, hr⟩
      exact Or.inr ⟨a, ha, hr⟩
    · rintro (hx | ⟨a, ha, hr⟩)
      · exact ⟨x, hx, Relation.ReflTransGen.refl⟩
      · exact ⟨a, ha, hr⟩

/-- Witness for C2: the selection containing only `B` on the linear graph. -/
theorem fromSelected_yields_closure_witness :
    (["B"] : List String) ≠ [] ∧
    ∃ T, computeStepSet linearGraph linearParent .fromSelected (some ["B"]) = .ok T ∧
      (∀ x ∈ (["B"] : List String), x ∈ T) ∧
      (∀ x, x ∈ T ↔ x ∈ (["B"] : List String) ∨
        ∃ a ∈ (["B"] : List String), Descends linearGraph a x) :=
  ⟨by decide, fromSelected_yields_closure linearGraph linearParent ["B"] (by decide)⟩

/-- C3: whenever the computed step set includes a step with an upstream
dependency outside the set whose parent status is not SUCCEEDED, the planner
fails with MissingUpstreamArtifactError and no plan is produced. -/
theorem plan_missing_upstream (g : PipelineGraph) (p : StatusMap)
    (mode : ReexecutionMode) (sel : Option (List String)) (T : List String)
    (t d : String) (hT : computeStepSet g p mode sel = .ok T) (ht : t ∈ T)
    (hd : d ∈ depsOf g t) (hdni : d ∉ T)
    (hstat : statusOf p d ≠ some StepStatus.succeeded) :
    plan g p mode sel = .error .missingUpstreamArtifact := by
  unfold plan
  rw [hT]
  simp [inputsFor_bad g p T T ⟨t, ht, d, hd, hdni, hstat⟩]

/-- Witness for C3: EXACT selection of only `C` on the linear graph fails
because the excluded upstream `B` did not succeed in the parent run. -/
theorem plan_missing_upstream_witness :
    computeStepSet linearGraph linearParent .exact (some ["C"]) = .ok ["C"] ∧
    "C" ∈ (["C"] : List String) ∧
    "B" ∈ depsOf linearGraph "C" ∧
    "B" ∉ (["C"] : List String) ∧
    statusOf linearParent "B" ≠ some StepStatus.succeeded ∧
    plan linearGraph linearParent .exact (some ["C"]) =
      .error .missingUpstreamArtifact :=
  ⟨rfl, by decide, by decide, by decide, by decide,
   plan_missing_upstream linearGraph linearParent .exact (some ["C"]) ["C"]
     "C" "B" rfl (by decide) (by decide) (by decide) (by decide)⟩

theorem plan_eq_of_stepSet (g : PipelineGraph) (p : StatusMap)
    (mode : ReexecutionMode) (sel : Option (List String)) (T : List String)
    (hT : computeStepSet g p mode sel = .ok T) :
    plan g p mode sel =
      (match inputsFor g p T T with
        | .error e => .error e
        | .ok inputs => .ok ⟨T, inputs⟩) := by
  unfold plan
  rw [hT]

theorem plan_eq_of_stepSet_error (g : PipelineGraph) (p : StatusMap)
    (mode : ReexecutionMode) (sel : Option (List String)) (e : PlanError)
    (hT : computeStepSet g p mode sel = .error e) :
    plan g p mode sel = .error e := by
  unfold plan
  rw [hT]

/-- C4: FROM_FAILURE planning fails with NoFailureToRecoverError exactly when
the parent snapshot records no FAILED or NOT_EXECUTED step. -/
theorem plan_fromFailure_noFailure_iff (g : PipelineGraph) (p : StatusMap)
    (sel : Option (List String)) :
    plan g p .fromFailure sel = .error .noFailureToRecover ↔
      ∀ e ∈ p, e.2 ≠ StepStatus.failed ∧ e.2 ≠ StepStatus.notExecuted := by
  constructor
  · intro h
    by_cases hf : hasFailure p = true
    · exfalso
      have hcs : computeStepSet g p .fromFailure sel =
          .ok (descendantsSet g (failedBase g p)) := by
        simp [computeStepSet, hf]
      rw [plan_eq_of_stepSet g p .fromFailure sel _ hcs] at h
      split at h
      · rename_i e' hrec
        injection h with h'
        rw [inputsFor_error_eq _ _ _ _ _ hrec] at h'
        cases h'
      · cases h
    · intro e he
      constructor
      · intro hfe
        exact hf (hasFailure_iff p |>.2 ⟨e, he, Or.inl hfe⟩)
      · intro hfe
        exact hf (hasFailure_iff p |>.2 ⟨e, he, Or.inr hfe⟩)
  · intro h
    have hf : hasFailure p = false := by
      rw [← Bool.not_eq_true]
      rw [hasFailure_iff]
      rintro ⟨e, he, hc | hc⟩
      · exact (h e he).1 hc
      · exact (h e he).2 hc
    apply plan_eq_of_stepSet_error
    simp [computeStepSet, hf]

/-- Witness for C4: after all previously failed steps of the linear run were
fixed and reached SUCCEEDED, a subsequent FROM_FAILURE plan fails. -/
theorem plan_fromFailure_noFailure_witness :
    plan linearGraph allSucceededParent .fromFailure none =
      .error .noFailureToRecover :=
  (plan_fromFailure_noFailure_iff linearGraph allSucceededParent none).2 (by decide)

/-- C9: ALL-mode planning yields the full step set of the graph and is
independent of the parent-run statuses. -/
theorem allMode_full_and_status_independent (g : PipelineGraph)
    (p₁ p₂ : StatusMap) (sel₁ sel₂ : Option (List String)) :
    computeStepSet g p₁ .all sel₁ = .ok (stepNames g) ∧
    computeStepSet g p₁ .all sel₁ = computeStepSet g p₂ .all sel₂ :=
  ⟨rfl, rfl⟩

/-! ### Topological ordering of a step subset -/

/-- A step of `remaining` none of whose dependencies is still in `remaining`. -/
def findReady (g : PipelineGraph) (remaining : List String) : Option String :=
  remaining.find? (fun s => (depsOf g s).all (fun d => decide (d ∉ remaining)))

/-- Modelled from the spec: repeatedly emit a ready step; fuel bounds the
number of rounds, `none` signals a cycle inside the subset. -/
def topoAux (g : PipelineGraph) : Nat → List String → Option (List String)
  | 0, remaining => if remaining = [] then some [] else none
  | n + 1, remaining =>
    if remaining = [] then some []
    else
      match findReady g remaining with
      | none => none
      | some s => (topoAux g n (remaining.erase s)).map (fun l => s :: l)

/-- Modelled from the spec: `topologicalOrder(StepSet)` — an ordered sequence
of the subset's steps consistent with the dependency edges restricted to it. -/
def topologicalOrder (g : PipelineGraph) (S : List String) : Option (List String) :=
  topoAux g S.dedup.length S.dedup

/-- Modelled from the spec: a valid PipelineGraph is acyclic; acyclicity is
captured by a rank strictly increasing along every dependency edge. -/
def AcyclicRanked (g : PipelineGraph) : Prop :=
  ∃ rank : String → Nat, ∀ t ∈ g, ∀ d ∈ t.deps, rank d < rank t.name

theorem mem_take_get {α : Type} (l : List α) (k : Nat) (d : α) (h : d ∈ l.take k) :
    ∃ i, ∃ hi : i < l.length, i < k ∧ l.get ⟨i, hi⟩ = d := by
  induction l generalizing k with
  | nil => simp at h
  | cons a l ih =>
    cases k with
    | zero => simp at h
    | succ k =>
      simp only [List.take] at h
      rcases List.mem_cons.1 h with rfl | h'
      · exact ⟨0, Nat.succ_pos _, Nat.succ_pos _, rfl⟩
      · rcases ih k h' with ⟨i, hi, hik, hget⟩
        exact ⟨i + 1, Nat.succ_lt_succ hi, Nat.succ_lt_succ hik, hget⟩

theorem findReady_ready {g : PipelineGraph} {remaining : List String} {s : String}
    (h : findReady g remaining = some s) :
    s ∈ remaining ∧ ∀ d ∈ depsOf g s, d ∉ remaining := by
  refine ⟨List.mem_of_find?_eq_some h, ?_⟩
  intro d hd
  have hp := List.find?_some h
  rw [List.all_eq_true] at hp
  simpa using hp d hd

theorem topoAux_spec (g : PipelineGraph) (n : Nat) (remaining : List String)
    (hnd : remaining.Nodup) (ord : List String)
    (h : topoAux g n remaining = some ord) :
    (∀ x, x ∈ ord ↔ x ∈ remaining) ∧
    ∀ (k : Nat) (hk : k < ord.length) (d : String),
      d ∈ depsOf g (ord.get ⟨k, hk⟩) → d ∈ remaining → d ∈ ord.take k := by
  induction n generalizing remaining ord with
  | zero =>
    simp only [topoAux] at h
    split at h
    · rename_i hrem
      injection h with h'
      subst h'
      subst hrem
      refine ⟨fun x => Iff.rfl, ?_⟩
      intro k hk
      cases hk
    · cases h
  | succ n ih =>
    simp only [topoAux] at h
    split at h
    · rename_i hrem
      injection h with h'
      subst h'
      subst hrem
      refine ⟨fun x => Iff.rfl, ?_⟩
      intro k hk
      cases hk
    · split at h
      · cases h
      · rename_i s hfind
        rcases Option.map_eq_some'.1 h with ⟨ord', hrec, rfl⟩
        rcases findReady_ready hfind with ⟨hsmem, hready⟩
        rcases ih (remaining.erase s) (hnd.erase s) ord' hrec with ⟨hmem, hord⟩
        constructor
        · intro x
          constructor
          · intro hx
            rcases List.mem_cons.1 hx with rfl | hx'
            · exact hsmem
            · exact List.mem_of_mem_erase ((hmem x).1 hx')
          · intro hx
            by_cases hxs : x = s
            · exact hxs ▸ List.mem_cons_self _ _
            · exact List.mem_cons_of_mem _
                ((hmem x).2 ((List.mem_erase_of_ne hxs).2 hx))
        · intro k hk d hd hdrem
          cases k with
          | zero =>
            exact absurd hdrem (hready d hd)
          | succ k =>
            have hk' : k < ord'.length := Nat.lt_of_succ_lt_succ hk
            by_cases hds : d = s
            · subst hds
              exact List.mem_cons_self _ _
            · have hde : d ∈ remaining.erase s := (List.mem_erase_of_ne hds).2 hdrem
              exact List.mem_cons_of_mem _ (hord k hk' d hd hde)

theorem exists_min_rank (rank : String → Nat) (l : List String) (hne : l ≠ []) :
    ∃ m ∈ l, ∀ x ∈ l, rank m ≤ rank x := by
  induction l with
  | nil => exact absurd rfl hne
  | cons a l ih =>
    rcases eq_or_ne l [] with rfl | hl
    · exact ⟨a, List.mem_cons_self _ _, by
        intro x hx
        rcases List.mem_cons.1 hx with rfl | hx'
        · exact Nat.le_refl _
        · cases hx'⟩
    · rcases ih hl with ⟨m, hm, hmin⟩
      by_cases hcmp : rank a ≤ rank m
      · refine ⟨a, List.mem_cons_self _ _, ?_⟩
        intro x hx
        rcases List.mem_cons.1 hx with rfl | hx'
        · exact Nat.le_refl _
        · exact Nat.le_trans hcmp (hmin x hx')
      · refine ⟨m, List.mem_cons_of_mem _ hm, ?_⟩
        intro x hx
        rcases List.mem_cons.1 hx with rfl | hx'
        · exact Nat.le_of_lt (Nat.lt_of_not_le hcmp)
        · exact hmin x hx'

theorem findReady_isSome (g : PipelineGraph) (hA : AcyclicRanked g)
    (remaining : List String) (hne : remaining ≠ []) :
    (findReady g remaining).isSome = true := by
  rcases hA with ⟨rank, hrank⟩
  rcases exists_min_rank rank remaining hne with ⟨m, hm, hmin⟩
  rw [findReady, List.find?_isSome]
  refine ⟨m, hm, ?_⟩
  rw [List.all_eq_true]
  intro d hd
  simp only [decide_eq_true_eq]
  intro hdrem
  have hlt : rank d < rank m := by
    unfold depsOf at hd
    split at hd
    · rename_i t ht
      have htg : t ∈ g := List.mem_of_find?_eq_some ht
      have hname : t.name = m := by simpa using List.find?_some ht
      exact hname ▸ hrank t htg d hd
    · cases hd
  exact absurd (hmin d hdrem) (Nat.not_le_of_lt hlt)

theorem topoAux_total (g : PipelineGraph) (hA : AcyclicRanked g) (n : Nat)
    (remaining : List String) (hlen : remaining.length ≤ n) :
    ∃ ord, topoAux g n remaining = some ord := by
  induction n generalizing remaining with
  | zero =>
    have : remaining = [] := List.eq_nil_of_length_eq_zero (Nat.le_zero.1 hlen)
    exact ⟨[], by simp [topoAux, this]⟩
  | succ n ih =>
    by_cases hrem : remaining = []
    · exact ⟨[], by simp [topoAux, hrem]⟩
    · have hsome := findReady_isSome g hA remaining hrem
      rcases Option.isSome_iff_exists.1 hsome with ⟨s, hfind⟩
      have hsmem : s ∈ remaining := (findReady_ready hfind).1
      have hlen' : (remaining.erase s).length ≤ n := by
        rw [List.length_erase_of_mem hsmem]
        omega
      rcases ih (remaining.erase s) hlen' with ⟨ord', hord'⟩
      exact ⟨s :: ord', by simp [topoAux, hrem, hfind, hord']⟩

/-- C5: for every acyclic PipelineGraph and every StepSet, `topologicalOrder`
returns a sequence containing exactly the set's steps in which every step
comes after each of its dependencies that is present in the set. -/
theorem topologicalOrder_respects_deps (g : PipelineGraph)
    (hA : AcyclicRanked g) (S : List String) :
    ∃ ord, topologicalOrder g S = some ord ∧
      (∀ x, x ∈ ord ↔ x ∈ S) ∧
      ∀ (k : Nat) (hk : k < ord.length) (d : String),
        d ∈ depsOf g (ord.get ⟨k, hk⟩) → d ∈ S →
          ∃ i, ∃ hi : i < ord.length, i < k ∧ ord.get ⟨i, hi⟩ = d := by
  rcases topoAux_total g hA S.dedup.length S.dedup (Nat.le_refl _) with ⟨ord, hord⟩
  rcases topoAux_spec g S.dedup.length S.dedup (List.nodup_dedup S) ord hord with
    ⟨hmem, horder⟩
  refine ⟨ord, hord, ?_, ?_⟩
  · intro x
    rw [hmem x, List.mem_dedup]
  · intro k hk d hd hdS
    exact mem_take_get ord k d (horder k hk d hd (List.mem_dedup.2 hdS))

/-- Witness for C5: an explicit rank certifies the linear graph acyclic, and
`topologicalOrder` of its full step set respects every dependency edge. -/
theorem topologicalOrder_respects_deps_witness :
    AcyclicRanked linearGraph ∧
    ∃ ord, topologicalOrder linearGraph ["C", "B", "A"] = some ord ∧
      (∀ x, x ∈ ord ↔ x ∈ (["C", "B", "A"] : List String)) ∧
      ∀ (k : Nat) (hk : k < ord.length) (d : String),
        d ∈ depsOf linearGraph (ord.get ⟨k, hk⟩) →
          d ∈ (["C", "B", "A"] : List String) →
          ∃ i, ∃ hi : i < ord.length, i < k ∧ ord.get ⟨i, hi⟩ = d := by
  have hA : AcyclicRanked linearGraph :=
    ⟨fun s => if s = "A" then 0 else if s = "B" then 1 else 2, by decide⟩
  exact ⟨hA, topologicalOrder_respects_deps linearGraph hA ["C", "B", "A"]⟩

/-! ### Selection parser -/

/-- An upstream or downstream closure depth: a finite hop count or the full
closure. -/
inductive Depth
  | fin (n : Nat)
  | unbounded
deriving DecidableEq, Repr

/-- Modelled from the spec: a parsed selection clause — a step name with
directional depth markers. -/
structure Clause where
  stepName : String
  upstreamDepth : Depth
  downstreamDepth : Depth
deriving DecidableEq, Repr

def isNameChar (c : Char) : Bool := c.isAlphanum || c = '_'

/-- Split a selection string into comma-separated clause token lists. -/
def splitOnComma : List Char → List (List Char)
  | [] => [[]]
  | c :: rest =>
    if c = ',' then [] :: splitOnComma rest
    else
      match splitOnComma rest with
      | [] => [[c]]
      | cl :: cls => (c :: cl) :: cls

/-- Parse the reversed tail of a clause: an optional unbounded marker and the
trailing plus count, returning the downstream depth (none when malformed) and
the remaining reversed characters. -/
def parseSuffix (r : List Char) : Option Depth × List Char :=
  match r with
  | [] => (some (Depth.fin 0), [])
  | c :: r' =>
    if c = '*' then
      (if (r'.takeWhile (fun ch => decide (ch = '+'))).isEmpty then none
       else some Depth.unbounded,
       r'.dropWhile (fun ch => decide (ch = '+')))
    else
      (some (Depth.fin ((c :: r').takeWhile (fun ch => decide (ch = '+'))).length),
       (c :: r').dropWhile (fun ch => decide (ch = '+')))

/-- Modelled from the spec: parse one clause — leading plus signs bound the
upstream depth, trailing plus signs (or a plus-star) the downstream depth,
and the remainder must be a non-empty step name of word characters. -/
def parseClause (cs : List Char) : Except PlanError Clause :=
  match parseSuffix ((cs.dropWhile (fun ch => decide (ch = '+'))).reverse) with
  | (none, _) => .error .malformedSelection
  | (some d, nameRev) =>
    if nameRev.reverse.isEmpty then .error .malformedSelection
    else if nameRev.reverse.all isNameChar then
      .ok ⟨String.mk nameRev.reverse,
           Depth.fin (cs.takeWhile (fun ch => decide (ch = '+'))).length, d⟩
    else .error .malformedSelection

def parseClauses : List (List Char) → Except PlanError (List Clause)
  | [] => .ok []
  | c :: cs =>
    match parseClause c with
    | .error e => .error e
    | .ok k =>
      match parseClauses cs with
      | .error e => .error e
      | .ok ks => .ok (k :: ks)

/-- Modelled from the spec: the selection grammar — a comma-separated list of
clauses. -/
def parseSelection (s : String) : Except PlanError (List Clause) :=
  parseClauses (splitOnComma s.data)

theorem mem_dropWhile_of_not {p : Char → Bool} {l : List Char} {ch : Char}
    (hch : ch ∈ l) (hp : p ch = false) : ch ∈ l.dropWhile p := by
  rw [← List.takeWhile_append_dropWhile p l] at hch
  rcases List.mem_append.1 hch with h | h
  · have := List.mem_takeWhile_imp h
    rw [hp] at this
    cases this
  · exact h

theorem parseSuffix_snd_subset (r : List Char) :
    ∀ ch ∈ (parseSuffix r).2, ch ∈ r := by
  intro ch hch
  match r with
  | [] => cases hch
  | c :: r' =>
    by_cases hc : c = '*'
    · simp only [parseSuffix, if_pos hc] at hch
      exact List.mem_cons_of_mem _ ((List.dropWhile_sublist _).subset hch)
    · simp only [parseSuffix, if_neg hc] at hch
      exact (List.dropWhile_sublist _).subset hch

theorem mem_parseSuffix_snd (r : List Char) (ch : Char) (hch : ch ∈ r)
    (h1 : ch ≠ '+') (h2 : ch ≠ '*') : ch ∈ (parseSuffix r).2 := by
  have hp : (fun c => decide (c = '+')) ch = false := by
    simp [h1]
  match r with
  | [] => cases hch
  | c :: r' =>
    by_cases hc : c = '*'
    · simp only [parseSuffix, if_pos hc]
      rcases List.mem_cons.1 hch with rfl | hch'
      · exact absurd hc h2
      · exact mem_dropWhile_of_not hch' hp
    · simp only [parseSuffix, if_neg hc]
      exact mem_dropWhile_of_not hch hp

theorem clauseName_subset (cs : List Char) {dd : Option Depth}
    {nameRev : List Char}
    (hps : parseSuffix ((cs.dropWhile (fun ch => decide (ch = '+'))).reverse) =
      (dd, nameRev)) :
    ∀ ch ∈ nameRev.reverse, ch ∈ cs := by
  intro ch hch
  have h1 : ch ∈ nameRev := List.mem_reverse.1 hch
  have h2 : ch ∈ (cs.dropWhile (fun c => decide (c = '+'))).reverse := by
    have := parseSuffix_snd_subset
      ((cs.dropWhile (fun c => decide (c = '+'))).reverse) ch
    rw [hps] at this
    exact this h1
  exact (List.dropWhile_sublist _).subset (List.mem_reverse.1 h2)

theorem parseClause_bad (c : List Char)
    (hbad : (∀ ch ∈ c, ch = '+' ∨ ch = '*') ∨
            (∃ ch ∈ c, isNameChar ch = false ∧ ch ≠ '+' ∧ ch ≠ '*')) :
    parseClause c = .error .malformedSelection := by
  unfold parseClause
  rcases hps : parseSuffix ((c.dropWhile (fun ch => decide (ch = '+'))).reverse)
    with ⟨dd, nameRev⟩
  cases dd with
  | none => rfl
  | some d =>
    by_cases hemp : nameRev.reverse.isEmpty
    · simp [hemp]
    · have hex : ∃ ch ∈ nameRev.reverse, isNameChar ch = false := by
        rcases hbad with hall | ⟨ch, hchc, hnc, hch1, hch2⟩
        · have hne : nameRev.reverse ≠ [] := by
            intro hnil
            rw [hnil] at hemp
            exact hemp rfl
          rcases List.exists_mem_of_ne_nil _ hne with ⟨ch, hch⟩
          refine ⟨ch, hch, ?_⟩
          rcases hall ch (clauseName_subset c hps ch hch) with rfl | rfl
          · decide
          · decide
        · refine ⟨ch, ?_, hnc⟩
          rw [List.mem_reverse]
          have hrest : ch ∈ c.dropWhile (fun c => decide (c = '+')) :=
            mem_dropWhile_of_not hchc (by simp [hch1])
          have := mem_parseSuffix_snd
            ((c.dropWhile (fun c => decide (c = '+'))).reverse) ch
            (List.mem_reverse.2 hrest) hch1 hch2
          rw [hps] at this
          exact this
      have hall : nameRev.reverse.all isNameChar = false := by
        rcases hex with ⟨ch, hch, hnc⟩
        rcases hb : nameRev.reverse.all isNameChar with _ | _
        · rfl
        · rw [List.all_eq_true] at hb
          rw [hb ch hch] at hnc
          cases hnc
      simp [hemp, hall]

theorem parseClause_error_eq (cs : List Char) (e : PlanError)
    (h : parseClause cs = .error e) : e = .malformedSelection := by
  unfold parseClause at h
  split at h
  · injection h with h'
    exact h'.symm
  · split at h
    · injection h with h'
      exact h'.symm
    · split at h
      · cases h
      · injection h with h'
        exact h'.symm

theorem parseClauses_bad (l : List (List Char)) (c : List Char) (hc : c ∈ l)
    (herr : parseClause c = .error .malformedSelection) :
    parseClauses l = .error .malformedSelection := by
  induction l with
  | nil => cases hc
  | cons c' l ih =>
    rcases List.mem_cons.1 hc with rfl | hc'
    · simp [parseClauses, herr]
    · cases hpc : parseClause c' with
      | error e =>
        rw [parseClause_error_eq c' e hpc] at hpc
        simp [parseClauses, hpc]
      | ok k => simp [parseClauses, hpc, ih hc']

/-- C7: any selection string with a clause that has no step name (only
modifier characters, including the empty clause) or that contains an unknown
token is rejected with MalformedSelectionError. -/
theorem parseSelection_rejects_malformed (s : String) (c : List Char)
    (hc : c ∈ splitOnComma s.data)
    (hbad : (∀ ch ∈ c, ch = '+' ∨ ch = '*') ∨
            (∃ ch ∈ c, isNameChar ch = false ∧ ch ≠ '+' ∧ ch ≠ '*')) :
    parseSelection s = .error .malformedSelection :=
  parseClauses_bad (splitOnComma s.data) c hc (parseClause_bad c hbad)

/-- Witness for C7: the expression of three plus signs has no step name and
fails with MalformedSelectionError. -/
theorem parseSelection_rejects_malformed_witness :
    (['+', '+', '+'] : List Char) ∈ splitOnComma ("+++".data) ∧
    parseSelection "+++" = .error .malformedSelection :=
  ⟨by decide,
   parseSelection_rejects_malformed "+++" ['+', '+', '+'] (by decide)
     (Or.inl (by decide))⟩

/-! ### Selection resolver -/

/-- Expansion of one step to the given depth along a neighbor function. -/
def depthExpand (nf : String → List String) (univ : List String) (d : Depth)
    (s : String) : List String :=
  match d with
  | .fin n => iterGrow nf n [s]
  | .unbounded => close nf univ [s]

/-- Modelled from the spec: resolve one clause — the step name, its ancestors
up to the upstream depth and its descendants up to the downstream depth;
fails with UnknownStepError when the name is not in the graph. -/
def resolveClause (g : PipelineGraph) (c : Clause) :
    Except PlanError (List String) :=
  if c.stepName ∈ stepNames g then
    .ok (depthExpand (depsOf g) (allDepNames g) c.upstreamDepth c.stepName ++
         depthExpand (childrenOf g) (stepNames g) c.downstreamDepth c.stepName)
  else .error .unknownStep

/-- Modelled from the spec: resolve a clause list by unioning the per-clause
step sets. -/
def resolve (g : PipelineGraph) : List Clause → Except PlanError (List String)
  | [] => .ok []
  | c :: cs =>
    match resolveClause g c with
    | .error e => .error e
    | .ok xs =>
      match resolve g cs with
      | .error e => .error e
      | .ok rest => .ok (xs ++ rest)

/-- Reaching `x` from `a` within the depth bound `d` along `nf`. -/
def DepthReach (nf : String → List String) (d : Depth) (a x : String) : Prop :=
  match d with
  | .fin n => ReachWithin nf n a x
  | .unbounded => Relation.ReflTransGen (stepRel nf) a x

theorem mem_depthExpand {nf : String → List String} {univ : List String}
    (hb : ∀ x y, y ∈ nf x → y ∈ univ) {d : Depth} {s x : String} :
    x ∈ depthExpand nf univ d s ↔ DepthReach nf d s x := by
  cases d with
  | fin n =>
    rw [depthExpand, DepthReach, mem_iterGrow]
    simp
  | unbounded =>
    rw [depthExpand, DepthReach, mem_close hb]
    simp

/-- C6: with every clause's step name present in the graph, the resolver
returns the union over clauses of the step name with its ancestors up to the
upstream depth and its descendants up to the downstream depth; and the parsed
expression "B+" on the linear graph resolves to exactly the steps B and C. -/
theorem resolve_characterization (g : PipelineGraph) (cs : List Clause)
    (hvalid : ∀ c ∈ cs, c.stepName ∈ stepNames g) :
    (∃ R, resolve g cs = .ok R ∧
      ∀ x, x ∈ R ↔ ∃ c ∈ cs,
        DepthReach (depsOf g) c.upstreamDepth c.stepName x ∨
        DepthReach (childrenOf g) c.downstreamDepth c.stepName x) ∧
    (∃ cs', parseSelection "B+" = .ok cs' ∧
      ∃ R', resolve linearGraph cs' = .ok R' ∧
        ∀ x, x ∈ R' ↔ x = "B" ∨ x = "C") := by
  constructor
  · induction cs with
    | nil =>
      refine ⟨[], rfl, ?_⟩
      intro x
      simp
    | cons c cs ih =>
      rcases ih (fun c' hc' => hvalid c' (List.mem_cons_of_mem _ hc')) with
        ⟨R, hR, hRmem⟩
      have hcname : c.stepName ∈ stepNames g := hvalid c (List.mem_cons_self _ _)
      have hrc : resolveClause g c =
          .ok (depthExpand (depsOf g) (allDepNames g) c.upstreamDepth c.stepName ++
            depthExpand (childrenOf g) (stepNames g) c.downstreamDepth c.stepName) := by
        simp [resolveClause, hcname]
      refine ⟨(depthExpand (depsOf g) (allDepNames g) c.upstreamDepth c.stepName ++
          depthExpand (childrenOf g) (stepNames g) c.downstreamDepth c.stepName) ++ R,
          by simp only [resolve, hrc, hR], ?_⟩
      intro x
      rw [List.mem_append, List.mem_append, hRmem,
        mem_depthExpand (depsOf_subset_allDepNames g),
        mem_depthExpand (childrenOf_subset_stepNames g)]
      constructor
      · rintro ((h | h) | ⟨c', hc', h⟩)
        · exact ⟨c, List.mem_cons_self _ _, Or.inl h⟩
        · exact ⟨c, List.mem_cons_self _ _, Or.inr h⟩
        · exact ⟨c', List.mem_cons_of_mem _ hc', h⟩
      · rintro ⟨c', hc', h⟩
        rcases List.mem_cons.1 hc' with rfl | hc''
        · rcases h with h | h
          · exact Or.inl (Or.inl h)
          · exact Or.inl (Or.inr h)
        · exact Or.inr ⟨c', hc'', h⟩
  · refine ⟨[⟨"B", .fin 0, .fin 1⟩], rfl, ["B", "B", "C"], rfl, ?_⟩
    intro x
    constructor
    · intro hx
      rcases List.mem_cons.1 hx with rfl | hx'
      · exact Or.inl rfl
      · rcases List.mem_cons.1 hx' with rfl | hx''
        · exact Or.inl rfl
        · rcases List.mem_cons.1 hx'' with rfl | hx'''
          · exact Or.inr rfl
          · cases hx'''
    · rintro (rfl | rfl)
      · exact List.mem_cons_self _ _
      · exact List.mem_cons_of_mem _ (List.mem_cons_of_mem _ (List.mem_cons_self _ _))

/-- Witness for C6: the singleton clause for B with downstream depth one on
the linear graph. -/
theorem resolve_characterization_witness :
    (∀ c ∈ ([⟨"B", .fin 0, .fin 1⟩] : List Clause),
      c.stepName ∈ stepNames linearGraph) ∧
    (∃ R, resolve linearGraph [⟨"B", .fin 0, .fin 1⟩] = .ok R ∧
      ∀ x, x ∈ R ↔ ∃ c ∈ ([⟨"B", .fin 0, .fin 1⟩] : List Clause),
        DepthReach (depsOf linearGraph) c.upstreamDepth c.stepName x ∨
        DepthReach (childrenOf linearGraph) c.downstreamDepth c.stepName x) :=
  ⟨by decide,
   (resolve_characterization linearGraph [⟨"B", .fin 0, .fin 1⟩] (by decide)).1⟩

/-! ### Run lineage tracker -/

/-- Modelled from the spec: an immutable run record with an optional parent
run pointer. -/
structure RunRecord where
  runId : Nat
  graphId : String
  parentRunId : Option Nat
  plannedSteps : List String
deriving DecidableEq, Repr

/-- Modelled from the spec: the run-history store — the records written so
far plus the next fresh run id. -/
structure RunStore where
  records : List RunRecord
  nextId : Nat
deriving DecidableEq, Repr

/-- Modelled from the spec: `registerRun` allocates a fresh unique run id and
appends a new immutable RunRecord carrying the parent pointer. -/
def registerRun (st : RunStore) (gid : String) (parent : Option Nat)
    (steps : List String) : Nat × RunStore :=
  (st.nextId,
   ⟨st.records ++ [⟨st.nextId, gid, parent, steps⟩], st.nextId + 1⟩)

def findRecord (st : RunStore) (id : Nat) : Option RunRecord :=
  st.records.find? (fun r => decide (r.runId = id))

/-- Store invariant: every existing record id is below the next fresh id. -/
def StoreInv (st : RunStore) : Prop :=
  ∀ r ∈ st.records, r.runId < st.nextId

/-- The record registered for run `b` points at run `a` as its parent. -/
def PointsTo (st : RunStore) (a b : Nat) : Prop :=
  ∃ r, findRecord st b = some r ∧ r.parentRunId = some a

/-- Register `n` successive re-executions, each new run's parent being the
run registered just before it. -/
def registerChain (gid : String) (steps : List String) :
    RunStore → Nat → Nat → List Nat × RunStore
  | st, _, 0 => ([], st)
  | st, parent, n + 1 =>
    ((registerRun st gid (some parent) steps).1 ::
       (registerChain gid steps (registerRun st gid (some parent) steps).2
         (registerRun st gid (some parent) steps).1 n).1,
     (registerChain gid steps (registerRun st gid (some parent) steps).2
       (registerRun st gid (some parent) steps).1 n).2)

theorem registerChain_ids (gid : String) (steps : List String) :
    ∀ (n : Nat) (st : RunStore) (parent : Nat),
      (registerChain gid steps st parent n).1 = List.range' st.nextId n := by
  intro n
  induction n with
  | zero => intro st parent; rfl
  | succ n ih =>
    intro st parent
    simp only [registerChain]
    rw [ih]
    rfl

theorem registerChain_records (gid : String) (steps : List String) :
    ∀ (n : Nat) (st : RunStore) (parent : Nat),
      ∃ l, (registerChain gid steps st parent n).2.records = st.records ++ l := by
  intro n
  induction n with
  | zero =>
    intro st parent
    exact ⟨[], (List.append_nil _).symm⟩
  | succ n ih =>
    intro st parent
    rcases ih (registerRun st gid (some parent) steps).2
        (registerRun st gid (some parent) steps).1 with ⟨l, hl⟩
    refine ⟨⟨st.nextId, gid, some parent, steps⟩ :: l, ?_⟩
    simp only [registerChain]
    rw [hl]
    simp [registerRun]

theorem findRecord_mono (st st' : RunStore) (l : List RunRecord)
    (hrec : st'.records = st.records ++ l) (id : Nat) (r : RunRecord)
    (h : findRecord st id = some r) : findRecord st' id = some r := by
  unfold findRecord at h ⊢
  rw [hrec, List.find?_append, h]
  rfl

theorem findRecord_fresh (st : RunStore) (hinv : StoreInv st) (gid : String)
    (parent : Option Nat) (steps : List String) :
    findRecord (registerRun st gid parent steps).2 st.nextId =
      some ⟨st.nextId, gid, parent, steps⟩ := by
  unfold findRecord registerRun
  rw [List.find?_append]
  have hnone : st.records.find? (fun r => decide (r.runId = st.nextId)) = none := by
    rw [List.find?_eq_none]
    intro r hr
    simp only [decide_eq_true_eq]
    exact Nat.ne_of_lt (hinv r hr)
  rw [hnone]
  simp

theorem storeInv_register (st : RunStore) (hinv : StoreInv st) (gid : String)
    (parent : Option Nat) (steps : List String) :
    StoreInv (registerRun st gid parent steps).2 := by
  intro r hr
  simp only [registerRun] at hr ⊢
  rcases List.mem_append.1 hr with hr' | hr'
  · exact Nat.lt_succ_of_lt (hinv r hr')
  · rw [List.mem_singleton] at hr'
    subst hr'
    exact Nat.lt_succ_self _

theorem registerChain_chainTo (gid : String) (steps : List String) :
    ∀ (n : Nat) (st : RunStore) (parent : Nat), StoreInv st →
      List.Chain (PointsTo (registerChain gid steps st parent n).2) parent
        (registerChain gid steps st parent n).1 := by
  intro n
  induction n with
  | zero =>
    intro st parent hinv
    exact List.Chain.nil
  | succ n ih =>
    intro st parent hinv
    simp only [registerChain]
    refine List.Chain.cons ?_ (ih _ _ (storeInv_register st hinv gid (some parent) steps))
    rcases registerChain_records gid steps n (registerRun st gid (some parent) steps).2
        (registerRun st gid (some parent) steps).1 with ⟨l, hl⟩
    refine ⟨⟨st.nextId, gid, some parent, steps⟩, ?_, rfl⟩
    exact findRecord_mono _ _ l hl _ _
      (findRecord_fresh st hinv gid (some parent) steps)

/-- C8: registering `n` successive re-executions from one root produces `n`
pairwise-distinct run ids, each newly written RunRecord's parentRunId
pointing at its immediate predecessor — a singly-linked chain of length
`n + 1` from the root — and the store is append-only: every pre-existing
RunRecord survives unchanged. -/
theorem registerChain_lineage (gid : String) (steps : List String)
    (st : RunStore) (root : Nat) (n : Nat) (hinv : StoreInv st) :
    (registerChain gid steps st root n).1.Nodup ∧
    (registerChain gid steps st root n).1.length = n ∧
    List.Chain (PointsTo (registerChain gid steps st root n).2) root
      (registerChain gid steps st root n).1 ∧
    ∃ l, (registerChain gid steps st root n).2.records = st.records ++ l := by
  refine ⟨?_, ?_, registerChain_chainTo gid steps n st root hinv,
    registerChain_records gid steps n st root⟩
  · rw [registerChain_ids gid steps n st root]
    exact List.nodup_range' _ _
  · rw [registerChain_ids gid steps n st root]
    exact List.length_range' _ _ _

/-- Witness for C8: three re-executions chained onto a store holding one root
run. -/
def rootStore : RunStore := ⟨[⟨0, "g", none, ["A"]⟩], 1⟩

/-- Witness for C8 applying the chain theorem at a concrete store. -/
theorem registerChain_lineage_witness :
    StoreInv rootStore ∧
    ((registerChain "g" ["A"] rootStore 0 3).1.Nodup ∧
     (registerChain "g" ["A"] rootStore 0 3).1.length = 3 ∧
     List.Chain (PointsTo (registerChain "g" ["A"] rootStore 0 3).2) 0
       (registerChain "g" ["A"] rootStore 0 3).1 ∧
     ∃ l, (registerChain "g" ["A"] rootStore 0 3).2.records =
       rootStore.records ++ l) := by
  have hinv : StoreInv rootStore := by
    intro r hr
    cases hr with
    | head => decide
    | tail _ h => cases h
  exact ⟨hinv, registerChain_lineage "g" ["A"] rootStore 0 3 hinv⟩

end Reexec

namespace AppError

/-!
### Error rendering in the web UI (AppError.tsx)

`AppStackTraceLink` renders an error body consisting of the operation name
line, the message, path and locations, then a stack-trace section only when
`error.stack_trace` is set, then a cause section only when `error.cause` is
set.  The JSX fragments are embedded as the strings they render to, with the
already-stringified path and locations held as strings.
-/

/-- A chained cause as typed in `DagsterGraphQLError`: a message and a
stack trace, both required on the cause. -/
structure CauseError where
  message : String
  stack_trace : List String
deriving DecidableEq, Repr

/-- The error consumed by `AppStackTraceLink`; `stack_trace` may be absent at
runtime (the component guards on it) and `cause` is optional. -/
structure DagsterGraphQLError where
  message : String
  path : String
  locations : String
  stack_trace : Option (List String)
  cause : Option CauseError
deriving DecidableEq, Repr

/-- The `stackTraceContent` fragment: rendered only when `stack_trace` is
set. -/
def stackTraceContent (e : DagsterGraphQLError) : String :=
  match e.stack_trace with
  | some st => "\n\nStack Trace:\n" ++ String.join st
  | none => ""

/-- The text of the cause section for a present cause. -/
def causeSection (c : CauseError) : String :=
  "\nThe above exception was the direct cause of the following exception:\n\n" ++
  ("Message: " ++ (c.message ++ ("\n\nStack Trace:\n" ++ String.join c.stack_trace)))

/-- The `causeContent` fragment: rendered only when `cause` is set. -/
def causeContent (e : DagsterGraphQLError) : String :=
  match e.cause with
  | some c => causeSection c
  | none => ""

def operationLine (operationName : Option String) : String :=
  match operationName with
  | some op => "Operation name: " ++ (op ++ "\n\n")
  | none => ""

/-- The unconditional part of the body: operation name, message, path and
locations. -/
def baseBody (e : DagsterGraphQLError) (operationName : Option String) : String :=
  operationLine operationName ++
  ("Message: " ++ (e.message ++
    ("\n\nPath: " ++ (e.path ++ ("\n\nLocations: " ++ e.locations)))))

/-- The full text of the `.errorInfo` div rendered by `AppStackTraceLink`. -/
def errorBody (e : DagsterGraphQLError) (operationName : Option String) : String :=
  baseBody e operationName ++ stackTraceContent e ++ causeContent e

theorem append_ne_empty_of_left {a : String} (b : String) (ha : a.length ≠ 0) :
    a ++ b ≠ "" := by
  intro h
  have hl := congrArg String.length h
  rw [String.length_append] at hl
  have h0 : ("" : String).length = 0 := rfl
  rw [h0] at hl
  omega

theorem causeSection_ne_empty (c : CauseError) : causeSection c ≠ "" :=
  append_ne_empty_of_left _ (by decide)

/-- C10: the rendered body contains the cause section (the fixed sentence,
the cause's message and its stack trace) iff `cause` is set, contains the
error's own stack-trace section iff `stack_trace` is set, and for an error
with neither field the body is exactly the unconditional part with neither
section rendered. -/
theorem errorBody_sections (e : DagsterGraphQLError) (op : Option String) :
    ((∃ c, e.cause = some c ∧ causeContent e = causeSection c) ∨
      (e.cause = none ∧ causeContent e = "")) ∧
    (causeContent e ≠ "" ↔ e.cause.isSome = true) ∧
    ((∃ st, e.stack_trace = some st ∧
        stackTraceContent e = "\n\nStack Trace:\n" ++ String.join st) ∨
      (e.stack_trace = none ∧ stackTraceContent e = "")) ∧
    (stackTraceContent e ≠ "" ↔ e.stack_trace.isSome = true) ∧
    errorBody e op = baseBody e op ++ stackTraceContent e ++ causeContent e ∧
    (e.cause = none → e.stack_trace = none → errorBody e op = baseBody e op) := by
  refine ⟨?_, ?_, ?_, ?_, rfl, ?_⟩
  · cases hc : e.cause with
    | some c => exact Or.inl ⟨c, rfl, by simp [causeContent, hc]⟩
    | none => exact Or.inr ⟨rfl, by simp [causeContent, hc]⟩
  · cases hc : e.cause with
    | some c =>
      simp only [Option.isSome_some]
      refine ⟨fun _ => trivial, fun _ => ?_⟩
      rw [causeContent, hc]
      exact causeSection_ne_empty c
    | none =>
      simp [causeContent, hc]
  · cases hs : e.stack_trace with
    | some st => exact Or.inl ⟨st, rfl, by simp [stackTraceContent, hs]⟩
    | none => exact Or.inr ⟨rfl, by simp [stackTraceContent, hs]⟩
  · cases hs : e.stack_trace with
    | some st =>
      simp only [Option.isSome_some]
      refine ⟨fun _ => trivial, fun _ => ?_⟩
      rw [stackTraceContent, hs]
      exact append_ne_empty_of_left _ (by decide)
    | none =>
      simp [stackTraceContent, hs]
  · intro hc hs
    rw [errorBody, causeContent, stackTraceContent, hc, hs]
    simp

/-- Witness for C10: an error with neither a stack trace nor a cause renders
only the unconditional body. -/
theorem errorBody_sections_witness :
    errorBody ⟨"boom", "[]", "[]", none, none⟩ (some "Q") =
      baseBody ⟨"boom", "[]", "[]", none, none⟩ (some "Q") :=
  (errorBody_sections ⟨"boom", "[]", "[]", none, none⟩ (some "Q")).2.2.2.2.2 rfl rfl

end AppError
